import Mathlib

/-!
Verification of the classification engine of the SLR data-extraction scripts
(`excel_to_bib.py`, `taxonomy_algo_query_prioritization.py`, `metrics_report.py`,
`sut_report.py`).  Cells are modelled as `Option String` (`none` models a
null/NaN spreadsheet cell); Python strings are modelled as Lean `String`
(a wrapper around `List Char`), Python `in` as substring containment, and the
Python regular expressions of the metric matchers by a small explicit matcher
over an abstract syntax covering exactly the constructs those patterns use.
All string primitives are implemented by structural recursion on `List Char`
so that every definition evaluates both in the compiler and in the kernel.
-/

namespace SLR

/-- A spreadsheet cell: `none` models Python `None` / float NaN, `some s` a
value whose `str()` form is `s`. -/
abbrev Cell := Option String

/-- `str(x)` for a cell that is present; defaults to `""` for absent cells
(the scripts never call `str` on an absent cell without guarding). -/
def cellStr (c : Cell) : String := c.getD ""

/-- Python whitespace test used by `str.strip()`. -/
def wsChar (c : Char) : Bool := c.isWhitespace

/-- Strip leading whitespace (Python `lstrip`). -/
def lStripWs (l : List Char) : List Char := l.dropWhile wsChar

/-- Strip trailing whitespace (Python `rstrip`). -/
def rStripWs (l : List Char) : List Char := (l.reverse.dropWhile wsChar).reverse

/-- Python `str.strip()` on a character list. -/
def pyStripL (l : List Char) : List Char := lStripWs (rStripWs l)

/-- Python `str.strip()`. -/
def pyStrip (s : String) : String := String.mk (pyStripL s.toList)

/-- Python `str.lower()` (ASCII case folding, which covers the data the
scripts match on). -/
def lowerS (s : String) : String := String.mk (s.toList.map Char.toLower)

/-- `isPrefL n h` : `n` is a prefix of `h` (decidable, executable). -/
def isPrefL : List Char → List Char → Bool
  | [], _ => true
  | _ :: _, [] => false
  | a :: as, b :: bs => a == b && isPrefL as bs

/-- `isSubL n h` : `n` occurs as a contiguous substring of `h`
(Python `n in h` for strings). -/
def isSubL (needle : List Char) : List Char → Bool
  | [] => isPrefL needle []
  | c :: t => isPrefL needle (c :: t) || isSubL needle t

/-- Python `needle in hay` for strings. -/
def strContains (hay needle : String) : Bool := isSubL needle.toList hay.toList

/-- `is_empty` from the scripts: absent cell, or the string trims to empty.
(Float NaN is subsumed by the `none` case of the model.) -/
def is_empty (x : Cell) : Bool :=
  match x with
  | none => true
  | some s => pyStrip s == ""

/-- Split a character list at every character satisfying `p`, keeping empty
pieces (the semantics of splitting on a one-character-class regex or on a
single separator character). -/
def splitByL (p : Char → Bool) : List Char → List (List Char)
  | [] => [[]]
  | c :: t =>
    match splitByL p t with
    | [] => if p c then [[], [c]] else [[c]]
    | q :: qs => if p c then [] :: q :: qs else (c :: q) :: qs

/-- The separator character class `[;,\|/+·&]` shared by all `split_multi`
variants of the scripts. -/
def isSep (c : Char) : Bool :=
  c == ';' || c == ',' || c == '|' || c == '/' || c == '+' || c == '·' || c == '&'

/-- Normalization of the full-width ampersand performed before splitting. -/
def ampNorm (l : List Char) : List Char :=
  l.map (fun c => if c == '＆' then '&' else c)

/-- `split_multi` of `taxonomy_algo_query_prioritization.py` /
`metrics_report.py` applied to a string `s` (both scripts first check
`is_empty`, normalize the full-width ampersand, split on the separator
class, trim the pieces and drop empty ones). -/
def split_multi (s : String) : List String :=
  if is_empty (some s) then []
  else
    ((splitByL isSep (ampNorm s.toList)).map (fun p => String.mk (pyStripL p))).filter
      (· ≠ "")

/-- Tokenization used by every matcher: `split_multi(s) or [s]`. -/
def tokensOr (s : String) : List String :=
  match split_multi s with
  | [] => [s]
  | ts => ts

/-- `TAXONOMY_KEYS` of `taxonomy_algo_query_prioritization.py`. -/
def TAXONOMY_KEYS : List String :=
  ["coverage", "requirement", "probability", "distribution",
   "human", "clustering", "history", "model", "cost", "other"]

/-- `ALGO_KEYS` of `taxonomy_algo_query_prioritization.py`. -/
def ALGO_KEYS : List String := ["heuristic", "meta", "graph", "dynamic", "ml", "greedy"]

/-- Python's `set.add`, modelled on a duplicate-free list: append the label
if it is not already present.  The scripts only ever observe these sets
through membership and re-sorting, so the insertion order chosen here is
observationally irrelevant. -/
def addLabel (found : List String) (x : String) : List String :=
  if x ∈ found then found else found ++ [x]

/-- Generic taxonomy matcher (`match_taxonomy_labels` of both scripts):
every key contained as a substring in some token fires. -/
def match_taxonomy_gen (taxKeys : List String) (cellValue : Cell) : List String :=
  let s := if is_empty cellValue then "" else lowerS (cellStr cellValue)
  let tokens := tokensOr s
  tokens.foldl
    (fun found tok =>
      taxKeys.foldl
        (fun fd key => if strContains (lowerS tok) key then addLabel fd key else fd)
        found)
    []

/-- `match_taxonomy_labels` of `taxonomy_algo_query_prioritization.py`. -/
def match_taxonomy_labels (cellValue : Cell) : List String :=
  match_taxonomy_gen TAXONOMY_KEYS cellValue

/-- Per-token label addition of `match_algorithm_labels`: the chain of
independent `if` tests of the source, inserting into the accumulated set. -/
def algoStep (found : List String) (tok : String) : List String :=
  let lt := lowerS tok
  let f1 := if strContains lt "meta" then addLabel found "meta" else found
  let f2 := if strContains lt "heuristic" && !strContains lt "meta" then addLabel f1 "heuristic" else f1
  let f3 := if strContains lt "graph" then addLabel f2 "graph" else f2
  let f4 := if strContains lt "dynamic" then addLabel f3 "dynamic" else f3
  let f5 := if strContains lt "ml" || strContains lt "machine learning" then addLabel f4 "ml" else f4
  if strContains lt "greedy" then addLabel f5 "greedy" else f5

/-- `match_algorithm_labels` of `taxonomy_algo_query_prioritization.py`. -/
def match_algorithm_labels (cellValue : Cell) : List String :=
  let s := if is_empty cellValue then "" else lowerS (cellStr cellValue)
  let tokens := tokensOr s
  tokens.foldl algoStep []

/-- The per-token firing rule of the algorithm matcher, as the claim states
it: substring containment for each key, except that `heuristic` is
suppressed for a token that also contains `meta`, and `ml` also fires on
"machine learning". -/
def algoFires (tok lbl : String) : Prop :=
  let lt := lowerS tok
  (lbl = "meta" ∧ strContains lt "meta" = true) ∨
  (lbl = "heuristic" ∧ strContains lt "heuristic" = true ∧ strContains lt "meta" = false) ∨
  (lbl = "graph" ∧ strContains lt "graph" = true) ∨
  (lbl = "dynamic" ∧ strContains lt "dynamic" = true) ∨
  (lbl = "ml" ∧ (strContains lt "ml" = true ∨ strContains lt "machine learning" = true)) ∨
  (lbl = "greedy" ∧ strContains lt "greedy" = true)

theorem mem_addLabel (found : List String) (x lbl : String) :
    lbl ∈ addLabel found x ↔ lbl = x ∨ lbl ∈ found := by
  unfold addLabel
  split_ifs with h
  · constructor
    · exact fun hm => Or.inr hm
    · rintro (rfl | hm)
      · exact h
      · exact hm
  · simp [or_comm]

theorem mem_ite_addLabel (c : Prop) [Decidable c] (x lbl : String) (s : List String) :
    (lbl ∈ if c then addLabel s x else s) ↔ (lbl = x ∧ c) ∨ lbl ∈ s := by
  split_ifs with h <;> simp [mem_addLabel, h]

set_option maxHeartbeats 1000000 in
theorem algoStep_mem (found : List String) (tok lbl : String) :
    lbl ∈ algoStep found tok ↔ lbl ∈ found ∨ algoFires tok lbl := by
  simp only [algoStep, algoFires, mem_ite_addLabel, Bool.and_eq_true, Bool.or_eq_true,
    Bool.not_eq_true']
  tauto

/-- Generic lemma: a left fold whose step adds exactly the labels `Q tok ·`
accumulates exactly the labels fired by some token. -/
theorem foldl_mem_of_step (f : List String → String → List String)
    (Q : String → String → Prop)
    (hf : ∀ fd tok lbl, lbl ∈ f fd tok ↔ lbl ∈ fd ∨ Q tok lbl)
    (tokens : List String) (found : List String) (lbl : String) :
    lbl ∈ tokens.foldl f found ↔ lbl ∈ found ∨ ∃ tok ∈ tokens, Q tok lbl := by
  induction tokens generalizing found with
  | nil => simp
  | cons t ts ih =>
    simp only [List.foldl_cons, ih, hf, List.mem_cons]
    constructor
    · rintro ((h | h) | ⟨tok, htok, h⟩)
      · exact Or.inl h
      · exact Or.inr ⟨t, Or.inl rfl, h⟩
      · exact Or.inr ⟨tok, Or.inr htok, h⟩
    · rintro (h | ⟨tok, (rfl | htok), h⟩)
      · exact Or.inl (Or.inl h)
      · exact Or.inl (Or.inr h)
      · exact Or.inr ⟨tok, htok, h⟩

/-- Tokens a matcher actually iterates over for a cell. -/
def cellTokens (cellValue : Cell) : List String :=
  tokensOr (if is_empty cellValue then "" else lowerS (cellStr cellValue))

theorem mem_match_algorithm_labels (cellValue : Cell) (lbl : String) :
    lbl ∈ match_algorithm_labels cellValue ↔ ∃ tok ∈ cellTokens cellValue, algoFires tok lbl := by
  unfold match_algorithm_labels cellTokens
  rw [foldl_mem_of_step algoStep algoFires algoStep_mem]
  simp

theorem foldl_keys_mem (P : String → Bool) (keys : List String) (fd : List String)
    (lbl : String) :
    lbl ∈ keys.foldl (fun fd key => if P key then addLabel fd key else fd) fd ↔
      lbl ∈ fd ∨ (lbl ∈ keys ∧ P lbl = true) := by
  induction keys generalizing fd with
  | nil => simp
  | cons k ks ih =>
    simp only [List.foldl_cons, ih, mem_ite_addLabel, List.mem_cons]
    constructor
    · rintro ((⟨rfl, hp⟩ | hfd) | ⟨hks, hp⟩)
      · exact Or.inr ⟨Or.inl rfl, hp⟩
      · exact Or.inl hfd
      · exact Or.inr ⟨Or.inr hks, hp⟩
    · rintro (hfd | ⟨rfl | hks, hp⟩)
      · exact Or.inl (Or.inr hfd)
      · exact Or.inl (Or.inl ⟨rfl, hp⟩)
      · exact Or.inr ⟨hks, hp⟩

theorem mem_match_taxonomy_gen (taxKeys : List String) (cellValue : Cell) (lbl : String) :
    lbl ∈ match_taxonomy_gen taxKeys cellValue ↔
      ∃ tok ∈ cellTokens cellValue, lbl ∈ taxKeys ∧ strContains (lowerS tok) lbl = true := by
  unfold match_taxonomy_gen cellTokens
  rw [foldl_mem_of_step _ (fun tok l => l ∈ taxKeys ∧ strContains (lowerS tok) l = true)
    (fun fd tok l => foldl_keys_mem (fun key => strContains (lowerS tok) key) taxKeys fd l)]
  simp

/-- Value of a list of decimal digit characters. -/
def natOfDigits (l : List Char) : Nat :=
  l.foldl (fun n c => 10 * n + (c.toNat - 48)) 0

/-- Maximal runs of decimal digits of a string, in textual order
(`re.findall(r"\d+", s)` followed by `int(...)`). -/
def digitRunsAux (cur : List Char) : List Char → List Nat
  | [] => if cur = [] then [] else [natOfDigits cur.reverse]
  | c :: rest =>
    if c.isDigit then digitRunsAux (c :: cur) rest
    else if cur = [] then digitRunsAux [] rest
    else natOfDigits cur.reverse :: digitRunsAux [] rest

def digitRuns (s : String) : List Nat := digitRunsAux [] s.toList

/-- The `for n in nums` loop of `parse_objectives`: first run `≥ 2` gives
`multi`, first run `= 1` gives `one`, other runs are skipped. -/
def firstDecisiveNum : List Nat → Option String
  | [] => none
  | v :: rest =>
    if v ≥ 2 then some "multi"
    else if v = 1 then some "one"
    else firstDecisiveNum rest

/-- `parse_objectives` of `taxonomy_algo_query_prioritization.py`. -/
def parse_objectives (cellValue : Cell) : Option String :=
  if is_empty cellValue then none
  else
    let s := lowerS (pyStrip (cellStr cellValue))
    if strContains s "one" || strContains s "single" || s == "1" then some "one"
    else if strContains s "multu" || strContains s "multi" then some "multi"
    else if strContains s "two" || strContains s "three" then some "multi"
    else
      match firstDecisiveNum (digitRuns s) with
      | some r => some r
      | none =>
        if strContains s "objectives" || strContains s ">" then some "multi"
        else some "one"

/-- `int(l)` for a piece of a paper id; 0 for a piece that is not a plain
numeral (never hit on ids of the form `paper_<n>`). -/
def toNatD (l : List Char) : Nat :=
  if l ≠ [] ∧ l.all Char.isDigit then natOfDigits l else 0

/-- Numeric suffix of a paper id: `int(pid.split("_")[1])`. -/
def paperNum (pid : String) : Nat :=
  toNatD ((splitByL (· == '_') pid.toList).getD 1 [])

/-- Comparison used by every aggregation finalizer:
`key=lambda x: int(x.split("_")[1])`, ascending. -/
def paperLe (a b : String) : Prop := paperNum a ≤ paperNum b

instance : DecidableRel paperLe := fun a b => by
  unfold paperLe
  infer_instance

instance : IsTotal String paperLe := ⟨fun a b => Nat.le_total (paperNum a) (paperNum b)⟩

instance : IsTrans String paperLe := ⟨fun _ _ _ => Nat.le_trans⟩

/-- The finalization step applied to every aggregated paper-id list:
`sorted(set(v), key=lambda x: int(x.split("_")[1]))` — deduplicate, then
sort ascending by the numeric suffix. -/
def finalize (v : List String) : List String :=
  List.insertionSort paperLe v.dedup

/-- The objective-count parser exactly as the claim words it: the
multu/multi/two/three clauses merged into a single `multi` rule. -/
def parse_objectives_claim (cellValue : Cell) : Option String :=
  if is_empty cellValue then none
  else
    let s := lowerS (pyStrip (cellStr cellValue))
    if strContains s "one" || strContains s "single" || s == "1" then some "one"
    else if strContains s "multu" || strContains s "multi" || strContains s "two" ||
        strContains s "three" then some "multi"
    else
      match firstDecisiveNum (digitRuns s) with
      | some r => some r
      | none =>
        if strContains s "objectives" || strContains s ">" then some "multi"
        else some "one"

/-- C1: the algorithm matcher fires token-by-token under substring
containment with `heuristic` suppressed on tokens containing `meta`
(`algoFires`), and on the claim's examples
`match("metaheuristic") = {"meta"}` (with `"heuristic"` absent) and
`match("heuristic, greedy") = {"heuristic","greedy"}`. -/
theorem C1_algorithm_label_matcher :
    (∀ (cellValue : Cell) (lbl : String),
        lbl ∈ match_algorithm_labels cellValue ↔
          ∃ tok ∈ cellTokens cellValue, algoFires tok lbl)
    ∧ match_algorithm_labels (some "metaheuristic") = ["meta"]
    ∧ "heuristic" ∉ match_algorithm_labels (some "metaheuristic")
    ∧ match_algorithm_labels (some "heuristic, greedy") = ["heuristic", "greedy"] :=
  ⟨mem_match_algorithm_labels, by decide, by decide, by decide⟩

/-- C4: every finalized aggregation list is duplicate-free, sorted ascending
by the numeric suffix of the paper id, contains exactly the accumulated
ids, and `["paper_10","paper_2","paper_1"]` finalizes to
`["paper_1","paper_2","paper_10"]`. -/
theorem C4_finalize_dedup_numeric_sort :
    (∀ v : List String,
        (finalize v).Nodup ∧ (finalize v).Sorted paperLe ∧ ∀ x, x ∈ finalize v ↔ x ∈ v)
    ∧ finalize ["paper_10", "paper_2", "paper_1"] = ["paper_1", "paper_2", "paper_10"] := by
  refine ⟨fun v => ⟨?_, ?_, fun x => ?_⟩, by decide⟩
  · exact ((List.perm_insertionSort paperLe v.dedup).symm).nodup (List.nodup_dedup v)
  · exact List.sorted_insertionSort paperLe v.dedup
  · rw [finalize, (List.perm_insertionSort paperLe v.dedup).mem_iff, List.mem_dedup]

/-- C6: the objective-count parser follows the claim's decision list
(`parse_objectives_claim`), and `parse("single objective") = "one"`,
`parse("3 objectives") = "multi"`, `parse("") = absent`,
`parse("1") = "one"`. -/
theorem C6_objective_count_rules :
    (∀ cellValue : Cell, parse_objectives cellValue = parse_objectives_claim cellValue)
    ∧ parse_objectives (some "single objective") = some "one"
    ∧ parse_objectives (some "3 objectives") = some "multi"
    ∧ parse_objectives (some "") = none
    ∧ parse_objectives (some "1") = some "one" := by
  refine ⟨fun c => ?_, by decide, by decide, by decide, by decide⟩
  unfold parse_objectives parse_objectives_claim
  simp only [Bool.or_eq_true]
  split_ifs <;> first | rfl | tauto

/-! ### Regular expressions of the metric rule tables

The patterns in `metrics_report.py` use only literals, alternation `|`,
option `?`, groups, and the word boundary `\b` (they are compiled with
`re.IGNORECASE` but only ever applied to text lowered by `tok.lower()`, and
contain no uppercase letters, so case-insensitivity is vacuous).  `Rx` is an
abstract syntax for exactly these constructs and `rsearch` implements
`re.search` for it: a match may start at any position, and `\b` consults the
word-character status of the previous and next character. -/

inductive Rx : Type
  | eps : Rx
  | lit : List Char → Rx
  | seq : Rx → Rx → Rx
  | alt : Rx → Rx → Rx
  | opt : Rx → Rx
  | wb : Rx

/-- Python regex word character `\w` (ASCII part, which covers the data). -/
def wordChar (c : Char) : Bool := c.isAlphanum || c == '_'

/-- `\b` holds between a word character and a non-word character (string
ends count as non-word). -/
def atBoundary (prev next : Option Char) : Bool :=
  (match prev with | none => false | some c => wordChar c) !=
    (match next with | none => false | some c => wordChar c)

/-- Consume a literal character sequence, tracking the last consumed
character (needed by a following `\b`). -/
def litConsume : List Char → Option Char → List Char → List (Option Char × List Char)
  | [], prev, s => [(prev, s)]
  | _ :: _, _, [] => []
  | c :: cs, _, d :: t => if c == d then litConsume cs (some d) t else []

/-- All ways a regex can match a prefix of `s`, given the character `prev`
preceding `s`; returns the last consumed character and the remaining
suffix for each way. -/
def Rx.mtch : Rx → Option Char → List Char → List (Option Char × List Char)
  | .eps, prev, s => [(prev, s)]
  | .lit cs, prev, s => litConsume cs prev s
  | .seq a b, prev, s => (a.mtch prev s).flatMap fun pr => b.mtch pr.1 pr.2
  | .alt a b, prev, s => a.mtch prev s ++ b.mtch prev s
  | .opt a, prev, s => (prev, s) :: a.mtch prev s
  | .wb, prev, s => if atBoundary prev s.head? then [(prev, s)] else []

/-- Search at the current position or at any later one. -/
def srchAux (r : Rx) : Option Char → List Char → Bool
  | prev, [] => !(r.mtch prev []).isEmpty
  | prev, c :: t => !(r.mtch prev (c :: t)).isEmpty || srchAux r (some c) t

/-- `re.search(r, s)` as a Boolean. -/
def rsearch (r : Rx) (s : String) : Bool := srchAux r none s.toList

/-- Literal pattern. -/
def L (s : String) : Rx := .lit s.toList

/-- `\b s \b`. -/
def wbW (s : String) : Rx := .seq .wb (.seq (L s) .wb)

/-- `PRIO_METRIC_CANON` of `metrics_report.py`. -/
def PRIO_METRIC_CANON : List String :=
  ["APFD/NAPFD", "Code-Coverage", "Number of Faults Detected / FDR",
   "Time-Based / Cost-Aware", "Precision/Recall/F-Measure", "Execution Time", "Other"]

/-- `SEL_METRIC_CANON` of `metrics_report.py`. -/
def SEL_METRIC_CANON : List String :=
  ["Number of Test Cases / Ratio", "Time-Based", "Precision/Recall/F-Measure",
   "Safety / Fault-Detection Capability", "Other"]

/-- `PRIO_COMPILED`: the compiled prioritization pattern table, in the
declaration order of `PRIO_METRIC_PATTERNS` ("Other" has no patterns and is
assigned by the fallback). -/
def PRIO_COMPILED : List (String × List Rx) :=
  [("APFD/NAPFD",
    [wbW "apfd", wbW "napfd",
     .seq (L "normalized") (.seq (.opt (L "-")) (.seq (L "apfd") .wb)),
     wbW "apfdc", wbW "apva", wbW "afdp", wbW "afpd",
     .seq (L "average percentage ") (.seq (.opt (L "of ")) (L "faults detected"))]),
   ("Code-Coverage", [wbW "apbc", wbW "apsc", wbW "apfc"]),
   ("Number of Faults Detected / FDR",
    [.seq (L "fault") (.seq (.opt (L "s")) (.seq (L " detected") .wb)),
     wbW "fdr", L "fault detection rate",
     .seq (L "high") (.seq (.opt (L "-")) (L "severity faults detected early"))]),
   ("Time-Based / Cost-Aware",
    [.alt (L "time to first failure") (wbW "ttff"),
     .alt (L "mean fault detection time") (wbW "mtfd"),
     L "time to risk detection", L "execution cost",
     .seq (L "cost") (.seq (.opt (L "-")) (L "aware apfdc")),
     L "average percentage of fault detected per cost"]),
   ("Precision/Recall/F-Measure",
    [wbW "precision", wbW "recall",
     .seq (L "f") (.seq (.opt (L "-")) (.seq (L "measure") .wb)),
     .seq .wb (.seq (L "f1") (.seq (.opt (L "-")) (.seq (L "score") .wb)))]),
   ("Execution Time",
    [L "prioritization execution time", L "time for prioritization",
     .seq (L "execution time") (.seq (.opt (L " per algorithm")) .wb)])]

/-- `PRIO_OTHER_COMPILED`: the compiled prioritization other-hints list. -/
def PRIO_OTHER_COMPILED : List Rx :=
  [L "kendall tau", L "redundancy rate", wbW "hypervolume", wbW "nrpa",
   wbW "ndcg", L "mutation score", L "effectiveness on flaky tests",
   wbW "code coverage",
   .seq (L "first") (.seq (.opt (L "-")) (L "fault position")),
   L "target test path finding rate", L "hamming distance",
   .seq (L "#") (.seq (.opt (L " ")) (L "of test cases executed")),
   L "percentage of suite runned"]

/-- `SEL_COMPILED`: the compiled selection pattern table. -/
def SEL_COMPILED : List (String × List Rx) :=
  [("Number of Test Cases / Ratio",
    [L "numero test selezionati",
     .seq (L "%") (.seq (.opt (L " ")) (L "di test selezionati")),
     .seq (L "#") (.seq (.opt (L " ")) (.seq (L "test") (.seq (.opt (L "s")) (L " selected")))),
     L "selected test ratio", L "test suite reduction"]),
   ("Time-Based",
    [L "user+system execution time", L "test suite execution time", wbW "time",
     wbW "ae time", wbW "aec time", L "execution time"]),
   ("Precision/Recall/F-Measure",
    [wbW "precision", wbW "recall",
     .seq (L "f") (.seq (.opt (L "-")) (.seq (L "measure") .wb)),
     .seq .wb (.seq (L "precision") (.seq (.opt (L " ")) (.seq (L "%") .wb)))]),
   ("Safety / Fault-Detection Capability",
    [wbW "safety", L "safety %",
     .seq (L "fault") (.seq (.opt (L "-")) (L "detection capability")),
     L "fault detection ability", L "number of detected faults",
     L "detection effectiveness"])]

/-- `SEL_OTHER_COMPILED`: the compiled selection other-hints list. -/
def SEL_OTHER_COMPILED : List Rx :=
  [wbW "hypervolume",
   .seq (L "qualitative") (.seq (.opt (L "/")) (L "effectiveness")),
   L "time saving percentage",
   .seq (L "size of ") (.seq (.opt (L "the ")) (L "pareto frontier")),
   .seq (L "number of non") (.seq (.opt (L "-")) (L "dominated solutions")),
   L "memory consumption"]

/-- `any(rgx.search(lt) for rgx in pats)` with first-match-wins
short-circuiting inside one pattern list. -/
def anyMatch (pats : List Rx) (s : String) : Bool := pats.any (fun r => rsearch r s)

/-- One token of the metric normalizers: try every canonical label's pattern
list independently (setting `matched_any` on success), then fall back to the
other-hints list. -/
def tokenMetricStep (compiled : List (String × List Rx)) (otherHints : List Rx)
    (found : List String) (tok : String) : List String :=
  let lt := lowerS tok
  let res := compiled.foldl
    (fun (acc : List String × Bool) p =>
      if anyMatch p.2 lt then (addLabel acc.1 p.1, true) else acc)
    (found, false)
  if res.2 then res.1
  else if anyMatch otherHints lt then addLabel res.1 "Other" else res.1

/-- Shared body of `normalize_metrics_for_prioritization` /
`normalize_metrics_for_selection`. -/
def normalize_metrics_generic (compiled : List (String × List Rx)) (otherHints : List Rx)
    (cellValue : Cell) : List String :=
  if is_empty cellValue then []
  else (tokensOr (cellStr cellValue)).foldl (tokenMetricStep compiled otherHints) []

/-- `normalize_metrics_for_prioritization` of `metrics_report.py`. -/
def normalize_metrics_for_prioritization (cellValue : Cell) : List String :=
  normalize_metrics_generic PRIO_COMPILED PRIO_OTHER_COMPILED cellValue

/-- `normalize_metrics_for_selection` of `metrics_report.py`. -/
def normalize_metrics_for_selection (cellValue : Cell) : List String :=
  normalize_metrics_generic SEL_COMPILED SEL_OTHER_COMPILED cellValue

/-- Tokens the metric normalizers iterate over. -/
def metricTokens (cellValue : Cell) : List String :=
  if is_empty cellValue then [] else tokensOr (cellStr cellValue)

/-- Labels one token contributes, per the claim: any canonical label whose
pattern list matches (labels are independent, so one token can contribute
several), and `Other` exactly when no canonical list matched but an
other-hints pattern did; a token matching neither contributes nothing. -/
def tokenMetricLabel (compiled : List (String × List Rx)) (otherHints : List Rx)
    (tok lbl : String) : Prop :=
  (∃ p ∈ compiled, p.1 = lbl ∧ anyMatch p.2 (lowerS tok) = true) ∨
  (lbl = "Other" ∧ (∀ p ∈ compiled, anyMatch p.2 (lowerS tok) = false) ∧
    anyMatch otherHints (lowerS tok) = true)

theorem metricFold_snd (compiled : List (String × List Rx)) (lt : String)
    (found : List String) (b : Bool) :
    (compiled.foldl
        (fun (acc : List String × Bool) p =>
          if anyMatch p.2 lt then (addLabel acc.1 p.1, true) else acc)
        (found, b)).2
      = (b || compiled.any (fun p => anyMatch p.2 lt)) := by
  induction compiled generalizing found b with
  | nil => simp
  | cons p ps ih =>
    by_cases h : anyMatch p.2 lt = true <;> simp [h, ih]

theorem metricFold_fst_mem (compiled : List (String × List Rx)) (lt : String)
    (found : List String) (b : Bool) (lbl : String) :
    lbl ∈ (compiled.foldl
        (fun (acc : List String × Bool) p =>
          if anyMatch p.2 lt then (addLabel acc.1 p.1, true) else acc)
        (found, b)).1
      ↔ lbl ∈ found ∨ ∃ p ∈ compiled, p.1 = lbl ∧ anyMatch p.2 lt = true := by
  induction compiled generalizing found b with
  | nil => simp
  | cons p ps ih =>
    by_cases h : anyMatch p.2 lt = true
    · simp only [List.foldl_cons]
      rw [if_pos h, ih, mem_addLabel]
      constructor
      · rintro ((rfl | hf) | ⟨q, hq, hql, hqm⟩)
        · exact Or.inr ⟨p, List.mem_cons_self p ps, rfl, h⟩
        · exact Or.inl hf
        · exact Or.inr ⟨q, List.mem_cons_of_mem _ hq, hql, hqm⟩
      · rintro (hf | ⟨q, hqmem, hql, hqm⟩)
        · exact Or.inl (Or.inr hf)
        · rcases List.mem_cons.mp hqmem with rfl | hq
          · exact Or.inl (Or.inl hql.symm)
          · exact Or.inr ⟨q, hq, hql, hqm⟩
    · simp only [List.foldl_cons]
      rw [if_neg h, ih]
      constructor
      · rintro (hf | ⟨q, hq, hql, hqm⟩)
        · exact Or.inl hf
        · exact Or.inr ⟨q, List.mem_cons_of_mem _ hq, hql, hqm⟩
      · rintro (hf | ⟨q, hqmem, hql, hqm⟩)
        · exact Or.inl hf
        · rcases List.mem_cons.mp hqmem with rfl | hq
          · exact absurd hqm h
          · exact Or.inr ⟨q, hq, hql, hqm⟩

theorem tokenMetricStep_mem (compiled : List (String × List Rx)) (otherHints : List Rx)
    (found : List String) (tok lbl : String) :
    lbl ∈ tokenMetricStep compiled otherHints found tok ↔
      lbl ∈ found ∨ tokenMetricLabel compiled otherHints tok lbl := by
  unfold tokenMetricStep tokenMetricLabel
  simp only [metricFold_snd, Bool.false_or]
  by_cases hb : compiled.any (fun p => anyMatch p.2 (lowerS tok)) = true
  · rw [if_pos hb, metricFold_fst_mem]
    obtain ⟨q, hq, hqm⟩ := List.any_eq_true.mp hb
    constructor
    · rintro (hf | he)
      · exact Or.inl hf
      · exact Or.inr (Or.inl he)
    · rintro (hf | he | ⟨_, hall, _⟩)
      · exact Or.inl hf
      · exact Or.inr he
      · exact absurd (hall q hq) (by simp [hqm])
  · rw [if_neg hb]
    have hall : ∀ p ∈ compiled, anyMatch p.2 (lowerS tok) = false := by
      intro p hp
      by_contra hc
      exact hb (List.any_eq_true.mpr ⟨p, hp, by simpa using hc⟩)
    have hnom : ¬ ∃ p ∈ compiled, p.1 = lbl ∧ anyMatch p.2 (lowerS tok) = true := by
      rintro ⟨p, hp, _, hm⟩
      rw [hall p hp] at hm
      exact Bool.false_ne_true hm
    by_cases hoth : anyMatch otherHints (lowerS tok) = true
    · rw [if_pos hoth, mem_addLabel, metricFold_fst_mem]
      constructor
      · rintro (rfl | hf | he)
        · exact Or.inr (Or.inr ⟨rfl, hall, hoth⟩)
        · exact Or.inl hf
        · exact absurd he hnom
      · rintro (hf | he | ⟨rfl, _, _⟩)
        · exact Or.inr (Or.inl hf)
        · exact absurd he hnom
        · exact Or.inl rfl
    · rw [if_neg hoth, metricFold_fst_mem]
      constructor
      · rintro (hf | he)
        · exact Or.inl hf
        · exact absurd he hnom
      · rintro (hf | he | ⟨_, _, hh⟩)
        · exact Or.inl hf
        · exact absurd he hnom
        · exact absurd hh hoth

theorem mem_normalize_metrics_generic (compiled : List (String × List Rx))
    (otherHints : List Rx) (cellValue : Cell) (lbl : String) :
    lbl ∈ normalize_metrics_generic compiled otherHints cellValue ↔
      ∃ tok ∈ metricTokens cellValue, tokenMetricLabel compiled otherHints tok lbl := by
  unfold normalize_metrics_generic metricTokens
  by_cases he : is_empty cellValue = true
  · simp [he]
  · have he' : is_empty cellValue = false := by simpa using he
    simp only [he', Bool.false_eq_true, if_false]
    rw [foldl_mem_of_step _ (tokenMetricLabel compiled otherHints)
      (tokenMetricStep_mem compiled otherHints)]
    simp

/-- C2: for both metric rule sets, a cell's label set is exactly the union
over its tokens of: every canonical label whose own pattern list matches the
token (labels independent, so one token may contribute several), plus
`Other` exactly when no canonical pattern list matched the token but an
other-hints pattern did; a token matching neither contributes no label. -/
theorem C2_metric_matcher_per_token :
    (∀ (cellValue : Cell) (lbl : String),
        lbl ∈ normalize_metrics_for_prioritization cellValue ↔
          ∃ tok ∈ metricTokens cellValue,
            tokenMetricLabel PRIO_COMPILED PRIO_OTHER_COMPILED tok lbl)
    ∧ (∀ (cellValue : Cell) (lbl : String),
        lbl ∈ normalize_metrics_for_selection cellValue ↔
          ∃ tok ∈ metricTokens cellValue,
            tokenMetricLabel SEL_COMPILED SEL_OTHER_COMPILED tok lbl) :=
  ⟨mem_normalize_metrics_generic PRIO_COMPILED PRIO_OTHER_COMPILED,
   mem_normalize_metrics_generic SEL_COMPILED SEL_OTHER_COMPILED⟩

/-! ### SUT origin classifier (`sut_report.py`) -/

/-- `CATEGORY_ORDER` of `sut_report.py`. -/
def CATEGORY_ORDER : List String :=
  ["SIR", "Defects4J", "Apache Projects", "Industrial / Proprietary",
   "Other Public Repositories"]

/-- `SIR_PROGRAMS` of `sut_report.py`. -/
def SIR_PROGRAMS : List String :=
  ["print_tokens", "print tokens", "print_tokens 2", "print tokens 2",
   "flex", "grep", "sed", "space", "gzip",
   "nano-xml", "nano xml",
   "xml-security", "xml security",
   "ant", "jtopas", "replace", "schedule", "schedule2", "tcas", "totinfo"]

def SIR_MARKERS : List String := ["sir"]

/-- `DEFECTS4J_PROJECTS` of `sut_report.py`. -/
def DEFECTS4J_PROJECTS : List String :=
  ["chart", "jfreechart",
   "closure",
   "math", "commons-math", "commons math",
   "lang", "commons-lang", "commons lang",
   "time", "joda-time", "joda time",
   "mockito",
   "cli", "commons-cli", "commons cli",
   "codec", "commons-codec", "commons codec",
   "collections", "commons-collections", "commons collections",
   "compress", "commons-compress", "commons compress",
   "gson", "jsoup", "jxpath"]

def DEFECTS4J_MARKERS : List String := ["defects4j", "defect4j", "defects 4j"]

/-- `APACHE_PROJECTS` of `sut_report.py`. -/
def APACHE_PROJECTS : List String :=
  ["ant", "jmeter", "tomcat", "camel",
   "commons-math", "commons lang", "commons-lang", "commons-io", "commons io",
   "commons-cli", "commons cli", "commons-codec", "commons codec",
   "commons-collections", "commons collections", "commons-compress", "commons compress",
   "struts", "hadoop", "spark", "jfreechart", "xml-security", "xml security"]

def APACHE_MARKERS : List String := ["apache", "apache software foundation", "asf"]

/-- `INDUSTRIAL_MARKERS` of `sut_report.py`. -/
def INDUSTRIAL_MARKERS : List String :=
  ["industrial", "proprietary", "company", "industry",
   "cisco", "abb", "abb robotics", "omicron", "siemens", "bosch",
   "google open source data set", "google open source dataset",
   "google open-source data set", "google dataset"]

/-- `OTHER_PUBLIC_SET` of `sut_report.py`. -/
def OTHER_PUBLIC_SET : List String :=
  ["nopcommerce", "umbraco", "jedit", "freemind", "k9-mail", "k9 mail",
   "open sudoku", "open-sudoku", "tcp-ci-dataset", "tcp ci dataset"]

def OTHER_PUBLIC_MARKERS : List String :=
  ["open source dataset", "public dataset", "dataset pubblico", "open dataset"]

/-- `to_lc` of `sut_report.py`. -/
def to_lc (x : String) : String := lowerS (pyStrip x)

/-- `any_token_contains`: some token contains one of the substrings. -/
def any_token_contains (lcToks pats : List String) : Bool :=
  lcToks.any (fun tok => pats.any (fun p => strContains tok p))

/-- `any_token_equals_or_contains`: some token equals or contains one of
the names. -/
def any_token_equals_or_contains (lcToks names : List String) : Bool :=
  lcToks.any (fun tok => names.any (fun p => p == tok || strContains tok p))

/-- The SIR membership test of `categorize_sut_tokens`. -/
def sirTest (lcToks : List String) : Bool :=
  any_token_contains lcToks SIR_MARKERS || any_token_equals_or_contains lcToks SIR_PROGRAMS

/-- The Defects4J membership test. -/
def d4jTest (lcToks : List String) : Bool :=
  any_token_contains lcToks DEFECTS4J_MARKERS ||
    any_token_equals_or_contains lcToks DEFECTS4J_PROJECTS

/-- The Apache Projects membership test. -/
def apacheTest (lcToks : List String) : Bool :=
  any_token_contains lcToks APACHE_MARKERS ||
    any_token_equals_or_contains lcToks APACHE_PROJECTS

/-- The Industrial / Proprietary membership test. -/
def indTest (lcToks : List String) : Bool :=
  any_token_contains lcToks INDUSTRIAL_MARKERS

/-- The Other Public Repositories membership test. -/
def oprTest (lcToks : List String) : Bool :=
  any_token_equals_or_contains lcToks OTHER_PUBLIC_SET ||
    any_token_contains lcToks OTHER_PUBLIC_MARKERS

/-- `categorize_sut_tokens` of `sut_report.py`: the five independent
membership tests followed by the fallback for a non-empty token list on
which no test fired. -/
def categorize_sut_tokens (tokens : List String) : List String :=
  let lcToks := tokens.map to_lc
  let cats : List String := []
  let c1 := if sirTest lcToks then addLabel cats "SIR" else cats
  let c2 := if d4jTest lcToks then addLabel c1 "Defects4J" else c1
  let c3 := if apacheTest lcToks then addLabel c2 "Apache Projects" else c2
  let c4 := if indTest lcToks then addLabel c3 "Industrial / Proprietary" else c3
  let c5 := if oprTest lcToks then addLabel c4 "Other Public Repositories" else c4
  if c5 = [] ∧ lcToks ≠ [] then addLabel c5 "Other Public Repositories" else c5

/-- Which categories a token list lands in, per the claim: the five tests
are independent membership tests, and `Other Public Repositories` also
holds when the list is non-empty and no test fired at all. -/
def sutCatFires (tokens : List String) (lbl : String) : Prop :=
  let lc := tokens.map to_lc
  (lbl = "SIR" ∧ sirTest lc = true) ∨
  (lbl = "Defects4J" ∧ d4jTest lc = true) ∨
  (lbl = "Apache Projects" ∧ apacheTest lc = true) ∨
  (lbl = "Industrial / Proprietary" ∧ indTest lc = true) ∨
  (lbl = "Other Public Repositories" ∧
    (oprTest lc = true ∨
      (sirTest lc = false ∧ d4jTest lc = false ∧ apacheTest lc = false ∧
        indTest lc = false ∧ oprTest lc = false ∧ tokens ≠ [])))

set_option maxHeartbeats 2000000 in
theorem mem_categorize_sut_tokens (tokens : List String) (lbl : String) :
    lbl ∈ categorize_sut_tokens tokens ↔ sutCatFires tokens lbl := by
  simp only [categorize_sut_tokens, sutCatFires]
  split_ifs with h1 h2 h3 h4 h5 h6 <;>
    simp_all [mem_addLabel, List.map_eq_nil_iff] <;> tauto

/-- C7: on a non-empty token list the SUT origin classifier returns a
non-empty category set, whose membership is exactly the five independent
membership tests plus the `Other Public Repositories` fallback when none of
them fired (`sutCatFires` — in particular the evaluation order of the tests
cannot affect the result). -/
theorem C7_sut_classifier_nonempty_independent (tokens : List String)
    (h : tokens ≠ []) :
    categorize_sut_tokens tokens ≠ [] ∧
      ∀ lbl, lbl ∈ categorize_sut_tokens tokens ↔ sutCatFires tokens lbl := by
  refine ⟨?_, fun lbl => mem_categorize_sut_tokens tokens lbl⟩
  by_cases hs : sirTest (tokens.map to_lc) = true
  · exact List.ne_nil_of_mem
      ((mem_categorize_sut_tokens tokens "SIR").mpr (Or.inl ⟨rfl, hs⟩))
  · by_cases hd : d4jTest (tokens.map to_lc) = true
    · exact List.ne_nil_of_mem
        ((mem_categorize_sut_tokens tokens "Defects4J").mpr (Or.inr (Or.inl ⟨rfl, hd⟩)))
    · by_cases ha : apacheTest (tokens.map to_lc) = true
      · exact List.ne_nil_of_mem
          ((mem_categorize_sut_tokens tokens "Apache Projects").mpr
            (Or.inr (Or.inr (Or.inl ⟨rfl, ha⟩))))
      · by_cases hi : indTest (tokens.map to_lc) = true
        · exact List.ne_nil_of_mem
            ((mem_categorize_sut_tokens tokens "Industrial / Proprietary").mpr
              (Or.inr (Or.inr (Or.inr (Or.inl ⟨rfl, hi⟩)))))
        · by_cases ho : oprTest (tokens.map to_lc) = true
          · exact List.ne_nil_of_mem
              ((mem_categorize_sut_tokens tokens "Other Public Repositories").mpr
                (Or.inr (Or.inr (Or.inr (Or.inr ⟨rfl, Or.inl ho⟩)))))
          · have hs' : sirTest (tokens.map to_lc) = false := by simpa using hs
            have hd' : d4jTest (tokens.map to_lc) = false := by simpa using hd
            have ha' : apacheTest (tokens.map to_lc) = false := by simpa using ha
            have hi' : indTest (tokens.map to_lc) = false := by simpa using hi
            have ho' : oprTest (tokens.map to_lc) = false := by simpa using ho
            exact List.ne_nil_of_mem
              ((mem_categorize_sut_tokens tokens "Other Public Repositories").mpr
                (Or.inr (Or.inr (Or.inr (Or.inr
                  ⟨rfl, Or.inr ⟨hs', hd', ha', hi', ho', h⟩⟩)))))

theorem C7_witness :
    (["yet another system"] : List String) ≠ [] ∧
      (categorize_sut_tokens ["yet another system"] ≠ [] ∧
        ∀ lbl, lbl ∈ categorize_sut_tokens ["yet another system"] ↔
          sutCatFires ["yet another system"] lbl) :=
  ⟨by decide, C7_sut_classifier_nonempty_independent ["yet another system"] (by decide)⟩

/-- C9: an empty cell (absent, NaN, or trimming to the empty string)
produces the empty label set from all four matchers: no taxonomy key, no
algorithm key, and no metric pattern fires. -/
theorem C9_empty_cell_no_labels :
    ∀ cellValue : Cell, is_empty cellValue = true →
      match_taxonomy_labels cellValue = [] ∧
      match_algorithm_labels cellValue = [] ∧
      normalize_metrics_for_prioritization cellValue = [] ∧
      normalize_metrics_for_selection cellValue = [] := by
  intro c h
  refine ⟨?_, ?_, ?_, ?_⟩
  · show match_taxonomy_gen TAXONOMY_KEYS c = []
    unfold match_taxonomy_gen
    rw [if_pos h]
    decide
  · unfold match_algorithm_labels
    rw [if_pos h]
    decide
  · show normalize_metrics_generic PRIO_COMPILED PRIO_OTHER_COMPILED c = []
    unfold normalize_metrics_generic
    rw [if_pos h]
  · show normalize_metrics_generic SEL_COMPILED SEL_OTHER_COMPILED c = []
    unfold normalize_metrics_generic
    rw [if_pos h]

theorem C9_witness :
    is_empty (none : Cell) = true ∧
      (match_taxonomy_labels none = [] ∧ match_algorithm_labels none = [] ∧
        normalize_metrics_for_prioritization none = [] ∧
        normalize_metrics_for_selection none = []) :=
  ⟨by decide, C9_empty_cell_no_labels none (by decide)⟩

/-- C10: every classifier only ever emits labels from its fixed closed
enumeration: taxonomy ⊆ `TAXONOMY_KEYS`, algorithm ⊆ `ALGO_KEYS`, the metric
normalizers ⊆ their canonical bucket lists (`Other` included), and the SUT
classifier ⊆ `CATEGORY_ORDER`. -/
theorem C10_labels_within_closed_enumerations :
    (∀ (c : Cell) (lbl : String), lbl ∈ match_taxonomy_labels c → lbl ∈ TAXONOMY_KEYS) ∧
    (∀ (c : Cell) (lbl : String), lbl ∈ match_algorithm_labels c → lbl ∈ ALGO_KEYS) ∧
    (∀ (c : Cell) (lbl : String),
      lbl ∈ normalize_metrics_for_prioritization c → lbl ∈ PRIO_METRIC_CANON) ∧
    (∀ (c : Cell) (lbl : String),
      lbl ∈ normalize_metrics_for_selection c → lbl ∈ SEL_METRIC_CANON) ∧
    (∀ (tokens : List String) (lbl : String),
      lbl ∈ categorize_sut_tokens tokens → lbl ∈ CATEGORY_ORDER) := by
  refine ⟨?_, ?_, ?_, ?_, ?_⟩
  · intro c lbl hm
    obtain ⟨tok, -, hk, -⟩ := (mem_match_taxonomy_gen TAXONOMY_KEYS c lbl).mp hm
    exact hk
  · intro c lbl hm
    obtain ⟨tok, -, hf⟩ := (mem_match_algorithm_labels c lbl).mp hm
    simp only [algoFires] at hf
    rcases hf with ⟨rfl, -⟩ | ⟨rfl, -, -⟩ | ⟨rfl, -⟩ | ⟨rfl, -⟩ | ⟨rfl, -⟩ | ⟨rfl, -⟩ <;> decide
  · intro c lbl hm
    obtain ⟨tok, -, hl⟩ :=
      (mem_normalize_metrics_generic PRIO_COMPILED PRIO_OTHER_COMPILED c lbl).mp hm
    have hsub : ∀ q ∈ PRIO_COMPILED, q.1 ∈ PRIO_METRIC_CANON := by decide
    rcases hl with ⟨p, hp, rfl, -⟩ | ⟨rfl, -, -⟩
    · exact hsub p hp
    · decide
  · intro c lbl hm
    obtain ⟨tok, -, hl⟩ :=
      (mem_normalize_metrics_generic SEL_COMPILED SEL_OTHER_COMPILED c lbl).mp hm
    have hsub : ∀ q ∈ SEL_COMPILED, q.1 ∈ SEL_METRIC_CANON := by decide
    rcases hl with ⟨p, hp, rfl, -⟩ | ⟨rfl, -, -⟩
    · exact hsub p hp
    · decide
  · intro tokens lbl hm
    have hf := (mem_categorize_sut_tokens tokens lbl).mp hm
    simp only [sutCatFires] at hf
    rcases hf with ⟨rfl, -⟩ | ⟨rfl, -⟩ | ⟨rfl, -⟩ | ⟨rfl, -⟩ | ⟨rfl, -⟩ <;> decide

/-! ### Report ordering (C3)

Python's `list.sort(key=...)` is a stable sort by the key tuple; for a total
preorder a stable sort is uniquely determined, so it is modelled by
`List.insertionSort` (stable) over the key-tuple comparison.  String
comparison is Python's: lexicographic by code point. -/

/-- Python `a < b` on strings (lexicographic by code point). -/
def strLtL : List Char → List Char → Bool
  | [], [] => false
  | [], _ :: _ => true
  | _ :: _, [] => false
  | a :: as, b :: bs => if a == b then strLtL as bs else decide (a.toNat < b.toNat)

/-- Python `a <= b` on strings. -/
def strLeL : List Char → List Char → Bool
  | [], _ => true
  | _ :: _, [] => false
  | a :: as, b :: bs => if a == b then strLeL as bs else decide (a.toNat < b.toNat)

def pyStrLt (a b : String) : Bool := strLtL a.toList b.toList

def pyStrLe (a b : String) : Bool := strLeL a.toList b.toList

/-- Index of the first occurrence of `m` in `order`, if any (the
`order_index` dictionary of `metrics_report.py` maps each name to its
first enumeration index). -/
def findPos (order : List String) (m : String) : Option Nat :=
  match order with
  | [] => none
  | x :: rest => if x == m then some 0 else (findPos rest m).map (· + 1)

/-- `order_index.get(m, 10**6)`. -/
def orderIndex (order : List String) (m : String) : Nat :=
  (findPos order m).getD 1000000

/-- The taxonomy × algorithm report comparison:
`key=lambda x: (x[0], x[1])` (plain alphabetical on both components). -/
def pairKeyLeB (a b : String × String) : Bool :=
  pyStrLt a.1 b.1 || (a.1 == b.1 && pyStrLe a.2 b.2)

/-- The taxonomy × metric report comparison:
`key=lambda x: (x[0], order_index.get(x[1], 10**6), x[1])`. -/
def metricKeyLeB (order : List String) (a b : String × String) : Bool :=
  pyStrLt a.1 b.1 || (a.1 == b.1 &&
    (decide (orderIndex order a.2 < orderIndex order b.2) ||
      (orderIndex order a.2 == orderIndex order b.2 && pyStrLe a.2 b.2)))

/-- The printed pair order of the taxonomy × algorithm report
(`taxonomy_algo_query_prioritization.py`, `pairs.sort(key=lambda x: (x[0], x[1]))`). -/
def sortPairsTaxAlgo (ps : List (String × String)) : List (String × String) :=
  List.insertionSort (fun a b => pairKeyLeB a b = true) ps

/-- The printed pair order of the taxonomy × metric reports
(`metrics_report.py`, `pairs.sort(key=lambda x: (x[0], order_index.get(x[1], 10**6), x[1]))`). -/
def sortPairsTaxMetric (order : List String) (ps : List (String × String)) :
    List (String × String) :=
  List.insertionSort (fun a b => metricKeyLeB order a b = true) ps

/-- Second-component rule exactly as the claim words it: position in the
enumeration's declared order, with labels not in the enumeration sorting
after all declared ones and alphabetically as a final tiebreak. -/
def claimSecondLe (order : List String) (m n : String) : Bool :=
  match findPos order m, findPos order n with
  | some i, some j => decide (i < j) || (i == j && pyStrLe m n)
  | some _, none => true
  | none, some _ => false
  | none, none => pyStrLe m n

/-- The claim's pair print-order rule: first component alphabetically, then
the second component by `claimSecondLe`. -/
def claimPairLe (order : List String) (a b : String × String) : Bool :=
  pyStrLt a.1 b.1 || (a.1 == b.1 && claimSecondLe order a.2 b.2)

/-- Alphabetical order on both components, the rule the taxonomy × algorithm
report actually uses. -/
def alphaPairLe (a b : String × String) : Bool :=
  pyStrLt a.1 b.1 || (a.1 == b.1 && pyStrLe a.2 b.2)

theorem findPos_lt_length (order : List String) (m : String) (i : Nat)
    (h : findPos order m = some i) : i < order.length := by
  induction order generalizing i with
  | nil => simp [findPos] at h
  | cons x rest ih =>
    unfold findPos at h
    by_cases hx : (x == m) = true
    · rw [if_pos hx] at h
      cases h
      simp
    · rw [if_neg hx] at h
      cases hf : findPos rest m with
      | none =>
        rw [hf] at h
        simp at h
      | some j =>
        rw [hf] at h
        simp at h
        subst h
        simpa using ih j hf

theorem metricKeyLeB_eq_claimPairLe (order : List String)
    (hlen : order.length ≤ 1000000) (a b : String × String) :
    metricKeyLeB order a b = claimPairLe order a b := by
  unfold metricKeyLeB claimPairLe claimSecondLe orderIndex
  rcases ha : findPos order a.2 with _ | i <;> rcases hb : findPos order b.2 with _ | j
  · rfl
  · have hj : j < 1000000 := lt_of_lt_of_le (findPos_lt_length order b.2 j hb) hlen
    have h1 : ¬(1000000 < j) := by omega
    have h2 : (1000000 == j) = false := by
      simp only [beq_eq_false_iff_ne, ne_eq]
      omega
    simp [ha, hb, h1, h2]
  · have hi : i < 1000000 := lt_of_lt_of_le (findPos_lt_length order a.2 i ha) hlen
    simp [ha, hb, hi]
  · rfl

theorem orderedInsert_congr {α : Type} (r₁ r₂ : α → α → Prop) [DecidableRel r₁]
    [DecidableRel r₂] (h : ∀ a b, r₁ a b ↔ r₂ a b) (a : α) (l : List α) :
    List.orderedInsert r₁ a l = List.orderedInsert r₂ a l := by
  induction l with
  | nil => rfl
  | cons b t ih =>
    simp only [List.orderedInsert]
    by_cases hr : r₁ a b
    · rw [if_pos hr, if_pos ((h a b).mp hr)]
    · rw [if_neg hr, if_neg (fun hc => hr ((h a b).mpr hc)), ih]

theorem insertionSort_congr {α : Type} (r₁ r₂ : α → α → Prop) [DecidableRel r₁]
    [DecidableRel r₂] (h : ∀ a b, r₁ a b ↔ r₂ a b) (l : List α) :
    List.insertionSort r₁ l = List.insertionSort r₂ l := by
  induction l with
  | nil => rfl
  | cons a t ih =>
    simp only [List.insertionSort]
    rw [ih, orderedInsert_congr r₁ r₂ h]

/-- C3 counterexample: the taxonomy × algorithm report does NOT order the
second component by its position in `ALGO_KEYS` (the enumeration's declared
order); it sorts alphabetically, so `(coverage, greedy)` prints before
`(coverage, heuristic)` although `heuristic` is declared before `greedy`. -/
theorem C3_counterexample :
    sortPairsTaxAlgo [("coverage", "greedy"), ("coverage", "heuristic")] =
        [("coverage", "greedy"), ("coverage", "heuristic")] ∧
      List.insertionSort (fun a b => claimPairLe ALGO_KEYS a b = true)
          [("coverage", "greedy"), ("coverage", "heuristic")] =
        [("coverage", "heuristic"), ("coverage", "greedy")] ∧
      sortPairsTaxAlgo [("coverage", "greedy"), ("coverage", "heuristic")] ≠
        List.insertionSort (fun a b => claimPairLe ALGO_KEYS a b = true)
          [("coverage", "greedy"), ("coverage", "heuristic")] := by
  refine ⟨by decide, by decide, by decide⟩

/-- C3 amended: the taxonomy × metric reports print pairs in the claim's
order (first component alphabetically, second by declared enumeration
position, unseen labels last with alphabetical tiebreak), for both the
prioritization and the selection metric enumerations; the taxonomy ×
algorithm report instead sorts alphabetically on both components. -/
theorem C3_amended_pair_print_order :
    (∀ ps, sortPairsTaxMetric PRIO_METRIC_CANON ps =
      List.insertionSort (fun a b => claimPairLe PRIO_METRIC_CANON a b = true) ps) ∧
    (∀ ps, sortPairsTaxMetric SEL_METRIC_CANON ps =
      List.insertionSort (fun a b => claimPairLe SEL_METRIC_CANON a b = true) ps) ∧
    (∀ ps, sortPairsTaxAlgo ps =
      List.insertionSort (fun a b => alphaPairLe a b = true) ps) := by
  refine ⟨fun ps => ?_, fun ps => ?_, fun ps => ?_⟩
  · exact insertionSort_congr _ _
      (fun a b => by rw [metricKeyLeB_eq_claimPairLe PRIO_METRIC_CANON (by decide) a b]) ps
  · exact insertionSort_congr _ _
      (fun a b => by rw [metricKeyLeB_eq_claimPairLe SEL_METRIC_CANON (by decide) a b]) ps
  · exact insertionSort_congr _ _ (fun a b => Iff.rfl) ps

/-! ### Author-list normalizer (`excel_to_bib.py`) -/

/-- ASCII `[a-z]` of the branch-5 regex. -/
def azLower (c : Char) : Bool := 97 ≤ c.toNat && c.toNat ≤ 122

/-- ASCII `[A-Z]` of the branch-5 regex. -/
def azUpper (c : Char) : Bool := 65 ≤ c.toNat && c.toNat ≤ 90

/-- The lookahead `[^A-Z]*[a-z]` of `re.split(r",(?![^A-Z]*[a-z])", s)`:
true iff, scanning forward, a lowercase letter appears before any uppercase
letter (or end of string). -/
def laMatch : List Char → Bool
  | [] => false
  | c :: rest => if azLower c then true else if azUpper c then false else laMatch rest

/-- `re.split(r",(?![^A-Z]*[a-z])", s)`: split at every comma whose negative
lookahead holds, i.e. at every comma NOT followed by `[^A-Z]*[a-z]`. -/
def laSplitAux (acc : List Char) : List Char → List (List Char)
  | [] => [acc.reverse]
  | c :: rest =>
    if c == ',' && !laMatch rest then acc.reverse :: laSplitAux [] rest
    else laSplitAux (c :: acc) rest

def laSplit (l : List Char) : List (List Char) := laSplitAux [] l

/-- Strip leading commas (half of Python `strip(",")`). -/
def lStripComma (l : List Char) : List Char := l.dropWhile (· == ',')

/-- Strip trailing commas. -/
def rStripComma (l : List Char) : List Char := (l.reverse.dropWhile (· == ',')).reverse

/-- `p.strip().strip(",")` of branch 5. -/
def cleanPiece (p : List Char) : List Char := lStripComma (rStripComma (pyStripL p))

/-- `re.sub(r"\s+", " ", ·)`: replace every maximal whitespace run by a
single space.  The Boolean argument records whether the previous character
was whitespace (so the run's later characters are dropped). -/
def collapseAux : Bool → List Char → List Char
  | _, [] => []
  | prevWs, c :: rest =>
    if wsChar c then
      if prevWs then collapseAux true rest else ' ' :: collapseAux true rest
    else c :: collapseAux false rest

def collapseWsL (l : List Char) : List Char := collapseAux false l

/-- `re.sub(r"\s+", " ", s)`. -/
def collapseWs (s : String) : String := String.mk (collapseWsL s.toList)

/-- The separator `" and "`. -/
def andSep : List Char := [' ', 'a', 'n', 'd', ' ']

/-- `" and ".join(parts)` (and `"; "`-style joins): concatenate with the
separator between consecutive parts. -/
def joinSep (sep : List Char) : List (List Char) → List Char
  | [] => []
  | [p] => p
  | p :: q :: rest => p ++ sep ++ joinSep sep (q :: rest)

/-- The alternating (Last, First) pairing of branch 4: pair tokens two by
two, emit `"Last, First"`, skip a pair when either half is empty. -/
def authorPairsL : List (List Char) → List (List Char)
  | last :: first :: rest =>
    (if last ≠ [] ∧ first ≠ [] then [last ++ (',' :: ' ' :: first)] else []) ++
      authorPairsL rest
  | _ => []

/-- Branch-5 parts: the lookahead split, each piece `strip().strip(",")`-ed,
empty results dropped. -/
def laParts (s : List Char) : List (List Char) :=
  ((laSplit s).map cleanPiece).filter (· ≠ [])

/-- Body of `normalize_author_list` on the stripped character list `s`
(the decision chain of branches 2–6; branch 1 is the `is_empty` guard of
the wrapper). -/
def normAuthL (s : List Char) : List Char :=
  if isSubL andSep s then collapseWsL s
  else if s.contains ';' then
    joinSep andSep (((splitByL (· == ';') s).map pyStripL).filter (· ≠ []))
  else
    let toks := (splitByL (· == ',') s).map pyStripL
    let pairs := authorPairsL toks
    if toks.length ≥ 4 ∧ toks.length % 2 = 0 ∧ pairs ≠ [] then joinSep andSep pairs
    else if s.count ',' ≥ 3 ∧ (laParts s).length > 1 then joinSep andSep (laParts s)
    else s

/-- `normalize_author_list` of `excel_to_bib.py`. -/
def normalize_author_list (raw : Cell) : String :=
  if is_empty raw then "" else String.mk (normAuthL (pyStripL (cellStr raw).toList))

/-- The comma tokens of branch 4 for a stripped input `s`:
`[t.strip() for t in s.split(",")]`. -/
def commaToks (s : List Char) : List (List Char) :=
  (splitByL (· == ',') s).map pyStripL

/-- C5 counterexample: the input `",,,"` has 4 comma tokens (≥ 4 and even),
every (Last, First) pair is skipped because both halves are empty, and the
function does NOT return the pairs joined with `" and "` (which would be the
empty string): it falls through and returns `",,,"` unchanged. -/
theorem C5_counterexample :
    (commaToks (pyStripL (",,,".toList))).length = 4 ∧
    (commaToks (pyStripL (",,,".toList))).length % 2 = 0 ∧
    authorPairsL (commaToks (pyStripL (",,,".toList))) = [] ∧
    String.mk (joinSep andSep (authorPairsL (commaToks (pyStripL (",,,".toList))))) = "" ∧
    normalize_author_list (some ",,,") = ",,," := by
  refine ⟨by decide, by decide, by decide, by decide, by decide⟩

/-- C5 amended: when branches 1–3 do not apply (non-empty input not
containing `" and "` or `";"`), the comma-token count is ≥ 4 and even, and
at least one (Last, First) pair survives the empty-half skip, the result is
exactly the pairs joined with `" and "`; when all pairs are skipped the
function instead falls through to the later branches. -/
theorem C5_amended_pairing_branch (raw : Cell)
    (hne : is_empty raw = false)
    (hand : isSubL andSep (pyStripL (cellStr raw).toList) = false)
    (hsemi : (pyStripL (cellStr raw).toList).contains ';' = false)
    (hlen : (commaToks (pyStripL (cellStr raw).toList)).length ≥ 4)
    (heven : (commaToks (pyStripL (cellStr raw).toList)).length % 2 = 0)
    (hpairs : authorPairsL (commaToks (pyStripL (cellStr raw).toList)) ≠ []) :
    normalize_author_list raw =
      String.mk (joinSep andSep (authorPairsL (commaToks (pyStripL (cellStr raw).toList)))) := by
  unfold normalize_author_list normAuthL
  split_ifs with h1 h2 h3 h4 <;> first | rfl | simp_all [commaToks]

theorem C5_witness :
    is_empty (some "Smith, John, Doe, Anna" : Cell) = false ∧
      normalize_author_list (some "Smith, John, Doe, Anna") = "Smith, John and Doe, Anna" :=
  ⟨by decide,
    (C5_amended_pairing_branch (some "Smith, John, Doe, Anna") (by decide) (by decide)
        (by decide) (by decide) (by decide) (by decide)).trans (by decide)⟩

/-- C8 counterexample: for `x = ",, cx,A,B"` the normalized form is
`" cx and A and B"` (branch 5 can expose leading whitespace), which contains
`" and "`; renormalizing gives `"cx and A and B"`, which differs from the
once-normalized string by *stripping* the leading whitespace — it equals
neither the once-normalized string nor its whitespace-run collapse
`" cx and A and B"`. -/
theorem C8_counterexample :
    strContains (normalize_author_list (some ",, cx,A,B")) " and " = true ∧
    normalize_author_list (some ",, cx,A,B") = " cx and A and B" ∧
    normalize_author_list (some (normalize_author_list (some ",, cx,A,B"))) =
      "cx and A and B" ∧
    normalize_author_list (some (normalize_author_list (some ",, cx,A,B"))) ≠
      normalize_author_list (some ",, cx,A,B") ∧
    normalize_author_list (some (normalize_author_list (some ",, cx,A,B"))) ≠
      collapseWs (normalize_author_list (some ",, cx,A,B")) := by
  refine ⟨by decide, by decide, by decide, by decide, by decide⟩

/-! ### Infrastructure for the amended C8: whitespace structure of
`normalize_author_list` outputs. -/

/-- The first character, if any, is not whitespace. -/
def headOk (l : List Char) : Prop := ∀ c t, l = c :: t → wsChar c = false

/-- The last character, if any, is not whitespace. -/
def lastOk (l : List Char) : Prop := headOk l.reverse

theorem headOk_nil : headOk ([] : List Char) := fun c t h => by cases h

theorem headOk_cons {c : Char} (t : List Char) (hc : wsChar c = false) : headOk (c :: t) :=
  fun d u h => by cases h; exact hc

theorem headOk_dropWhile_ws (l : List Char) : headOk (l.dropWhile wsChar) := by
  induction l with
  | nil => exact headOk_nil
  | cons c t ih =>
    by_cases h : wsChar c = true
    · rw [List.dropWhile_cons_of_pos h]
      exact ih
    · rw [List.dropWhile_cons_of_neg h]
      exact headOk_cons t (by simpa using h)

theorem dropWhile_eq_self_of_headOk {l : List Char} (h : headOk l) :
    l.dropWhile wsChar = l := by
  cases l with
  | nil => rfl
  | cons c t => exact List.dropWhile_cons_of_neg (by simp [h c t rfl])

theorem dropWhile_suffix_self (p : Char → Bool) (l : List Char) : l.dropWhile p <:+ l := by
  induction l with
  | nil => exact List.suffix_rfl
  | cons c t ih =>
    by_cases h : p c = true
    · rw [List.dropWhile_cons_of_pos h]
      exact ih.trans (List.suffix_cons c t)
    · rw [List.dropWhile_cons_of_neg h]

theorem lastOk_of_suffix {y x : List Char} (h : y <:+ x) (hx : lastOk x) : lastOk y := by
  obtain ⟨pre, rfl⟩ := h
  unfold lastOk at hx ⊢
  rw [List.reverse_append] at hx
  intro c t hy
  exact hx c (t ++ pre.reverse) (by rw [hy]; simp)

theorem pyStripL_headOk (l : List Char) : headOk (pyStripL l) := headOk_dropWhile_ws _

theorem rStripWs_lastOk (l : List Char) : lastOk (rStripWs l) := by
  unfold lastOk rStripWs
  rw [List.reverse_reverse]
  exact headOk_dropWhile_ws _

theorem pyStripL_lastOk (l : List Char) : lastOk (pyStripL l) :=
  lastOk_of_suffix (dropWhile_suffix_self wsChar (rStripWs l)) (rStripWs_lastOk l)

theorem pyStripL_eq_self {l : List Char} (h1 : headOk l) (h2 : lastOk l) :
    pyStripL l = l := by
  unfold pyStripL rStripWs lStripWs
  rw [dropWhile_eq_self_of_headOk h2, List.reverse_reverse, dropWhile_eq_self_of_headOk h1]

theorem headOk_append_left {a : List Char} (b : List Char) (ha : headOk a) (hne : a ≠ []) :
    headOk (a ++ b) := by
  cases a with
  | nil => exact absurd rfl hne
  | cons c t => exact headOk_cons (t ++ b) (ha c t rfl)

theorem lastOk_append_right (a : List Char) {b : List Char} (hb : lastOk b) (hne : b ≠ []) :
    lastOk (a ++ b) := by
  unfold lastOk
  rw [List.reverse_append]
  exact headOk_append_left a.reverse hb (by simpa using hne)

theorem exists_last_decomp {l : List Char} (hne : l ≠ []) (h : lastOk l) :
    ∃ l2 c, l = l2 ++ [c] ∧ wsChar c = false := by
  cases hrev : l.reverse with
  | nil => exact absurd (by simpa using congrArg List.reverse hrev) hne
  | cons c t =>
    refine ⟨t.reverse, c, ?_, h c t hrev⟩
    have := congrArg List.reverse hrev
    rw [List.reverse_reverse] at this
    rw [this, List.reverse_cons]

/-- `isPrefL` decides the prefix relation. -/
theorem isPrefL_iff (n h : List Char) : isPrefL n h = true ↔ ∃ t, h = n ++ t := by
  induction n generalizing h with
  | nil => simp [isPrefL]
  | cons c n' ih =>
    cases h with
    | nil => simp [isPrefL]
    | cons d h' =>
      simp only [isPrefL, Bool.and_eq_true, beq_iff_eq, ih, List.cons_append]
      constructor
      · rintro ⟨rfl, t, rfl⟩
        exact ⟨t, rfl⟩
      · rintro ⟨t, ht⟩
        cases ht
        exact ⟨rfl, t, rfl⟩

/-- `isSubL` decides the substring (infix) relation. -/
theorem isSubL_iff (n h : List Char) : isSubL n h = true ↔ ∃ u t, h = u ++ n ++ t := by
  induction h with
  | nil =>
    show isPrefL n [] = true ↔ _
    rw [isPrefL_iff]
    constructor
    · rintro ⟨t, ht⟩
      exact ⟨[], t, by simpa using ht⟩
    · rintro ⟨u, t, ht⟩
      rcases List.append_eq_nil.mp (List.append_eq_nil.mp ht.symm).1 with ⟨-, h2⟩
      exact ⟨t, by simp_all⟩
  | cons c h' ih =>
    show (isPrefL n (c :: h') || isSubL n h') = true ↔ _
    rw [Bool.or_eq_true, isPrefL_iff, ih]
    constructor
    · rintro (⟨t, ht⟩ | ⟨u, t, ht⟩)
      · exact ⟨[], t, by simpa using ht⟩
      · exact ⟨c :: u, t, by simp [ht]⟩
    · rintro ⟨u, t, ht⟩
      cases u with
      | nil => exact Or.inl ⟨t, by simpa using ht⟩
      | cons d u' =>
        rw [List.cons_append, List.cons_append] at ht
        cases ht
        exact Or.inr ⟨u', t, rfl⟩

theorem dropWhile_append_of_exists {p : Char → Bool} {x : List Char} (z : List Char)
    (hx : ∃ c ∈ x, p c = false) :
    (x ++ z).dropWhile p = x.dropWhile p ++ z := by
  induction x with
  | nil => simp at hx
  | cons c t ih =>
    by_cases hc : p c = true
    · rw [List.cons_append, List.dropWhile_cons_of_pos hc, List.dropWhile_cons_of_pos hc]
      refine ih ?_
      obtain ⟨d, hd, hdp⟩ := hx
      rcases List.mem_cons.mp hd with rfl | hdt
      · exact absurd hc (by simp [hdp])
      · exact ⟨d, hdt, hdp⟩
    · rw [List.cons_append, List.dropWhile_cons_of_neg hc, List.dropWhile_cons_of_neg hc,
        List.cons_append]

/-- Outer-whitespace stripping preserves any middle segment flanked by
non-whitespace characters on both sides. -/
theorem pyStripL_keeps_middle {u v : List Char} (m : List Char)
    (hu : ∃ c ∈ u, wsChar c = false) (hv : ∃ c ∈ v, wsChar c = false) :
    ∃ u2 v2, pyStripL (u ++ m ++ v) = u2 ++ m ++ v2 := by
  unfold pyStripL rStripWs lStripWs
  have h1 : (u ++ m ++ v).reverse = v.reverse ++ (m.reverse ++ u.reverse) := by simp
  rw [h1, dropWhile_append_of_exists _ (by
    obtain ⟨c, hc, hcw⟩ := hv
    exact ⟨c, List.mem_reverse.mpr hc, hcw⟩)]
  rw [List.reverse_append, List.reverse_append, List.reverse_reverse, List.reverse_reverse]
  rw [List.append_assoc, dropWhile_append_of_exists _ hu]
  exact ⟨u.dropWhile wsChar, (v.reverse.dropWhile wsChar).reverse, by simp⟩

theorem collapseWsL_headOk {l : List Char} (h : headOk l) : headOk (collapseWsL l) := by
  cases l with
  | nil => exact headOk_nil
  | cons c t =>
    unfold collapseWsL collapseAux
    rw [if_neg (by simp [h c t rfl])]
    exact headOk_cons _ (h c t rfl)

theorem collapseAux_last {c : Char} (hc : wsChar c = false) (l2 : List Char) :
    ∀ b : Bool, ∃ y2, collapseAux b (l2 ++ [c]) = y2 ++ [c] := by
  induction l2 with
  | nil =>
    intro b
    refine ⟨[], ?_⟩
    show collapseAux b [c] = [c]
    unfold collapseAux
    rw [if_neg (by simp [hc])]
    rfl
  | cons d t ih =>
    intro b
    show ∃ y2, collapseAux b (d :: (t ++ [c])) = y2 ++ [c]
    unfold collapseAux
    by_cases hd : wsChar d = true
    · rw [if_pos hd]
      cases b with
      | true =>
        obtain ⟨y2, hy⟩ := ih true
        exact ⟨y2, by simpa using hy⟩
      | false =>
        obtain ⟨y2, hy⟩ := ih true
        exact ⟨' ' :: y2, by simp [hy]⟩
    · rw [if_neg hd]
      obtain ⟨y2, hy⟩ := ih false
      exact ⟨d :: y2, by simp [hy]⟩

theorem collapseWsL_lastOk {l l2 : List Char} {c : Char} (hl : l = l2 ++ [c])
    (hc : wsChar c = false) : lastOk (collapseWsL l) := by
  obtain ⟨y2, hy⟩ := collapseAux_last hc l2 false
  subst hl
  show headOk (collapseWsL (l2 ++ [c])).reverse
  unfold collapseWsL
  rw [hy, List.reverse_append]
  exact headOk_cons _ hc

theorem joinSep_headOk (sep : List Char) (parts : List (List Char))
    (hp : ∀ p ∈ parts, p ≠ [] ∧ headOk p) : headOk (joinSep sep parts) := by
  match parts with
  | [] => exact headOk_nil
  | [p] => exact (hp p (List.mem_singleton_self p)).2
  | p :: q :: rest =>
    show headOk ((p ++ sep) ++ joinSep sep (q :: rest))
    have h := hp p (List.mem_cons_self p _)
    exact headOk_append_left _ (headOk_append_left sep h.2 h.1) (by simp [h.1])

theorem joinSep_ne_nil (sep : List Char) (q : List Char) (rest : List (List Char))
    (hq : q ≠ []) : joinSep sep (q :: rest) ≠ [] := by
  cases rest with
  | nil => exact hq
  | cons r rest' =>
    show (q ++ sep) ++ joinSep sep (r :: rest') ≠ []
    simp [hq]

theorem joinSep_lastOk (sep : List Char) (parts : List (List Char))
    (hp : ∀ p ∈ parts, p ≠ [] ∧ lastOk p) : lastOk (joinSep sep parts) := by
  induction parts with
  | nil => exact headOk_nil
  | cons p rest ih =>
    cases rest with
    | nil => exact (hp p (List.mem_singleton_self p)).2
    | cons q rest' =>
      show lastOk ((p ++ sep) ++ joinSep sep (q :: rest'))
      have htail : lastOk (joinSep sep (q :: rest')) :=
        ih fun r hr => hp r (List.mem_cons_of_mem p hr)
      have hqne : q ≠ [] := (hp q (List.mem_cons_of_mem p (List.mem_cons_self q _))).1
      exact lastOk_append_right (p ++ sep) htail (joinSep_ne_nil sep q rest' hqne)

theorem authorPairsL_facts : ∀ toks : List (List Char),
    (∀ t ∈ toks, headOk t ∧ lastOk t) →
    ∀ q ∈ authorPairsL toks, q ≠ [] ∧ headOk q ∧ lastOk q
  | [] => by intro _ q hq; simp [authorPairsL] at hq
  | [_] => by intro _ q hq; simp [authorPairsL] at hq
  | last :: first :: rest' => by
    intro ht q hq
    have hstep : authorPairsL (last :: first :: rest') =
        (if last ≠ [] ∧ first ≠ [] then [last ++ (',' :: ' ' :: first)] else []) ++
          authorPairsL rest' := rfl
    rw [hstep] at hq
    rcases List.mem_append.mp hq with hq1 | hq2
    · by_cases hne : last ≠ [] ∧ first ≠ []
      · rw [if_pos hne] at hq1
        have hqe : q = last ++ (',' :: ' ' :: first) := by simpa using hq1
        subst hqe
        have hlastf := ht last (List.mem_cons_self _ _)
        have hfirstf := ht first (List.mem_cons_of_mem _ (List.mem_cons_self _ _))
        refine ⟨by simp [hne.1], ?_, ?_⟩
        · exact headOk_append_left _ hlastf.1 hne.1
        · refine lastOk_append_right last ?_ (by simp)
          show headOk (',' :: ' ' :: first).reverse
          rw [show (',' :: ' ' :: first).reverse = first.reverse ++ [' ', ','] from by simp]
          cases hfr : first.reverse with
          | nil => exact absurd (by simpa using congrArg List.reverse hfr) hne.2
          | cons c t =>
            rw [List.cons_append]
            exact headOk_cons _ (hfirstf.2 c t hfr)
      · rw [if_neg hne] at hq1
        simp at hq1
    · exact authorPairsL_facts rest'
        (fun t htm => ht t (List.mem_cons_of_mem _ (List.mem_cons_of_mem _ htm))) q hq2

/-! Branch-5 structure: pieces of the lookahead split clean up to
lists whose last character is not whitespace. -/

/-- Last character absent or non-whitespace, as a disjunction with an
explicit decomposition. -/
def goodR (x : List Char) : Prop :=
  x = [] ∨ ∃ x2 c, x = x2 ++ [c] ∧ wsChar c = false

theorem dropWhile_snoc (p : Char → Bool) (x : List Char) {c : Char} (hc : p c = false) :
    ∃ y, (x ++ [c]).dropWhile p = y ++ [c] := by
  induction x with
  | nil => exact ⟨[], by simp [List.dropWhile_cons, hc]⟩
  | cons d t ih =>
    by_cases hd : p d = true
    · obtain ⟨y, hy⟩ := ih
      exact ⟨y, by rw [List.cons_append, List.dropWhile_cons_of_pos hd, hy]⟩
    · refine ⟨d :: t, ?_⟩
      rw [List.cons_append, List.dropWhile_cons_of_neg hd]

/-- Right-stripping a list ending in a non-`p` character keeps it intact. -/
theorem rStrip_snoc_keep (p : Char → Bool) (x : List Char) {c : Char} (hc : p c = false) :
    ((x ++ [c]).reverse.dropWhile p).reverse = x ++ [c] := by
  rw [List.reverse_append, List.reverse_singleton, List.singleton_append,
    List.dropWhile_cons_of_neg (by simp [hc])]
  simp

theorem cleanPiece_snoc_ws (x : List Char) {w : Char} (hw : wsChar w = true) :
    cleanPiece (x ++ [w]) = cleanPiece x := by
  unfold cleanPiece pyStripL rStripWs lStripWs
  rw [List.reverse_append, List.reverse_singleton, List.singleton_append,
    List.dropWhile_cons_of_pos hw]

theorem cleanPiece_snoc_keep (x : List Char) {c : Char} (hcw : wsChar c = false)
    (hcc : (c == ',') = false) :
    ∃ y, cleanPiece (x ++ [c]) = y ++ [c] := by
  unfold cleanPiece pyStripL rStripWs lStripWs lStripComma rStripComma
  rw [rStrip_snoc_keep wsChar x hcw]
  obtain ⟨y1, hy1⟩ := dropWhile_snoc wsChar x hcw
  rw [hy1, rStrip_snoc_keep (fun x => x == ',') y1 hcc]
  exact dropWhile_snoc (fun x => x == ',') y1 hcc

theorem laMatch_cons_transparent {c : Char} (h1 : azLower c = false)
    (h2 : azUpper c = false) (r : List Char) : laMatch (c :: r) = laMatch r := by
  simp [laMatch, h1, h2]

theorem ws_not_az {c : Char} (h : wsChar c = true) :
    azLower c = false ∧ azUpper c = false := by
  have h' : ((c = ' ' ∨ c = '\t') ∨ c = '\r') ∨ c = '\n' := by
    simpa [wsChar, Char.isWhitespace] using h
  rcases h' with ((rfl | rfl) | rfl) | rfl <;> exact ⟨by decide, by decide⟩

/-- The branch-5 piece invariant: starting from an accumulator whose cleaned
reversal is `goodR` — or with a pending successful lookahead — every piece
the split emits cleans up `goodR`. -/
theorem laSplitAux_goodR (input : List Char) :
    ∀ acc : List Char, (goodR (cleanPiece acc.reverse) ∨ laMatch input = true) →
      ∀ p ∈ laSplitAux acc input, goodR (cleanPiece p) := by
  induction input with
  | nil =>
    intro acc hinv p hp
    have hp' : p = acc.reverse := by simpa [laSplitAux] using hp
    subst hp'
    rcases hinv with hJ | hla
    · exact hJ
    · exact absurd hla (by simp [laMatch])
  | cons c rest ih =>
    intro acc hinv p hp
    unfold laSplitAux at hp
    by_cases hcut : (c == ',' && !laMatch rest) = true
    · rw [if_pos hcut] at hp
      rcases List.mem_cons.mp hp with rfl | hp'
      · have hcomma : c = ',' ∧ laMatch rest = false := by
          simpa [Bool.and_eq_true, Bool.not_eq_true'] using hcut
        rcases hinv with hJ | hla
        · exact hJ
        · rw [hcomma.1, laMatch_cons_transparent (by decide) (by decide)] at hla
          exact absurd hla (by simp [hcomma.2])
      · exact ih [] (Or.inl (Or.inl rfl)) p hp'
    · rw [if_neg hcut] at hp
      refine ih (c :: acc) ?_ p hp
      by_cases hw : wsChar c = true
      · rcases hinv with hJ | hla
        · left
          rw [List.reverse_cons, cleanPiece_snoc_ws acc.reverse hw]
          exact hJ
        · right
          rw [laMatch_cons_transparent (ws_not_az hw).1 (ws_not_az hw).2] at hla
          exact hla
      · by_cases hc : (c == ',') = true
        · right
          rcases hb : laMatch rest with _ | _
          · exact absurd (by simp [hc, hb]) hcut
          · rfl
        · left
          rw [List.reverse_cons]
          obtain ⟨y, hy⟩ := cleanPiece_snoc_keep acc.reverse (by simpa using hw)
            (by simpa using hc)
          exact Or.inr ⟨y, c, hy, by simpa using hw⟩

/-- Every kept branch-5 part is non-empty with a non-whitespace last
character. -/
theorem laParts_facts (s : List Char) :
    ∀ q ∈ laParts s, q ≠ [] ∧ ∃ q2 c, q = q2 ++ [c] ∧ wsChar c = false := by
  intro q hq
  unfold laParts at hq
  have hq' := List.mem_filter.mp hq
  obtain ⟨piece, hpiece, hcp⟩ := List.mem_map.mp hq'.1
  have hgood := laSplitAux_goodR s [] (Or.inl (Or.inl rfl)) piece hpiece
  rw [hcp] at hgood
  rcases hgood with hnil | hdec
  · exact absurd hnil (by simpa using hq'.2)
  · exact ⟨by simpa using hq'.2, hdec⟩

theorem mem_joinSep_head {x : Char} {q : List Char} (sep : List Char)
    (rest : List (List Char)) (hx : x ∈ q) : x ∈ joinSep sep (q :: rest) := by
  cases rest with
  | nil => exact hx
  | cons r rest' =>
    show x ∈ (q ++ sep) ++ joinSep sep (r :: rest')
    exact List.mem_append_left _ (List.mem_append_left _ hx)

/-- Outer-whitespace stripping cannot destroy every `" and "` occurrence of
a `normalize_author_list` output: whichever branch produced the output, the
stripped output still contains `" and "` whenever the output does. -/
theorem normAuthL_strip_keeps_andSep (s : List Char)
    (hsh : headOk s) (hsl : lastOk s)
    (h : isSubL andSep (normAuthL s) = true) :
    isSubL andSep (pyStripL (normAuthL s)) = true := by
  simp only [normAuthL] at h ⊢
  split_ifs at h ⊢ with hb2 hb3 hb4 hb5
  · -- branch 2: collapsed whitespace
    have hne : s ≠ [] := by
      rintro rfl
      exact absurd hb2 (by decide)
    obtain ⟨l2, c, hdec, hc⟩ := exists_last_decomp hne hsl
    rw [pyStripL_eq_self (collapseWsL_headOk hsh) (collapseWsL_lastOk hdec hc)]
    exact h
  · -- branch 3: semicolon join of stripped parts
    have hfacts : ∀ p ∈ ((splitByL (· == ';') s).map pyStripL).filter (· ≠ []),
        p ≠ [] ∧ headOk p ∧ lastOk p := by
      intro p hp
      have hp' := List.mem_filter.mp hp
      obtain ⟨piece, hpiece, rfl⟩ := List.mem_map.mp hp'.1
      exact ⟨by simpa using hp'.2, pyStripL_headOk piece, pyStripL_lastOk piece⟩
    rw [pyStripL_eq_self
      (joinSep_headOk _ _ (fun p hp => ⟨(hfacts p hp).1, (hfacts p hp).2.1⟩))
      (joinSep_lastOk _ _ (fun p hp => ⟨(hfacts p hp).1, (hfacts p hp).2.2⟩))]
    exact h
  · -- branch 4: (Last, First) pairs join
    have htoks : ∀ t ∈ (splitByL (· == ',') s).map pyStripL, headOk t ∧ lastOk t := by
      intro t ht
      obtain ⟨piece, hpiece, rfl⟩ := List.mem_map.mp ht
      exact ⟨pyStripL_headOk piece, pyStripL_lastOk piece⟩
    have hfacts := authorPairsL_facts _ htoks
    rw [pyStripL_eq_self
      (joinSep_headOk _ _ (fun p hp => ⟨(hfacts p hp).1, (hfacts p hp).2.1⟩))
      (joinSep_lastOk _ _ (fun p hp => ⟨(hfacts p hp).1, (hfacts p hp).2.2⟩))]
    exact h
  · -- branch 5: survival of the first " and " separator
    rcases hp : laParts s with _ | ⟨P1, rest1⟩
    · rw [hp] at hb5
      simp at hb5
    · rcases rest1 with _ | ⟨P2, rest⟩
      · rw [hp] at hb5
        simp at hb5
      · have hP1 := laParts_facts s P1 (hp ▸ List.mem_cons_self _ _)
        have hP2 := laParts_facts s P2 (hp ▸ List.mem_cons_of_mem _ (List.mem_cons_self _ _))
        obtain ⟨-, q1, c1, hd1, hc1⟩ := hP1
        obtain ⟨-, q2, c2, hd2, hc2⟩ := hP2
        have hu : ∃ c ∈ P1, wsChar c = false := ⟨c1, by simp [hd1], hc1⟩
        have hv : ∃ c ∈ joinSep andSep (P2 :: rest), wsChar c = false :=
          ⟨c2, mem_joinSep_head andSep rest (by simp [hd2]), hc2⟩
        obtain ⟨u2, v2, heq⟩ := pyStripL_keeps_middle andSep hu hv
        show isSubL andSep (pyStripL ((P1 ++ andSep) ++ joinSep andSep (P2 :: rest))) = true
        rw [heq]
        exact (isSubL_iff _ _).mpr ⟨u2, v2, rfl⟩
  · -- fallthrough branch returns s, which contains no " and "
    exact absurd h (by simp [hb2])

theorem normAuthL_of_contains (t : List Char) (h : isSubL andSep t = true) :
    normAuthL t = collapseWsL t := by
  unfold normAuthL
  rw [if_pos h]

/-- C8 amended: on any input whose normalized form contains `" and "`,
renormalizing yields exactly the once-normalized string with outer
whitespace trimmed and internal whitespace runs collapsed. -/
theorem C8_amended_idempotence (x : Cell)
    (h : strContains (normalize_author_list x) " and " = true) :
    normalize_author_list (some (normalize_author_list x)) =
      collapseWs (pyStrip (normalize_author_list x)) := by
  by_cases hx : is_empty x = true
  · exfalso
    unfold normalize_author_list at h
    rw [if_pos hx] at h
    exact absurd h (by decide)
  · have hx' : is_empty x = false := by simpa using hx
    have hy : normalize_author_list x =
        String.mk (normAuthL (pyStripL (cellStr x).toList)) := by
      unfold normalize_author_list
      rw [if_neg (by simp [hx'])]
    set s := pyStripL (cellStr x).toList with hs
    have hsub : isSubL andSep (normAuthL s) = true := by
      rw [hy] at h
      exact h
    have hkey : isSubL andSep (pyStripL (normAuthL s)) = true :=
      normAuthL_strip_keeps_andSep s (pyStripL_headOk _) (pyStripL_lastOk _) hsub
    have hne2 : is_empty (some (String.mk (normAuthL s))) = false := by
      have hnn : pyStripL (normAuthL s) ≠ [] := by
        intro hnil
        rw [hnil] at hkey
        exact absurd hkey (by decide)
      unfold is_empty pyStrip
      simp only [beq_eq_false_iff_ne, ne_eq]
      intro hcontra
      apply hnn
      have := congrArg String.toList hcontra
      simpa using this
    rw [hy]
    unfold normalize_author_list
    rw [if_neg (by simp [hne2])]
    have hcs : cellStr (some (String.mk (normAuthL s))) = String.mk (normAuthL s) := rfl
    rw [hcs]
    have htl : (String.mk (normAuthL s)).toList = normAuthL s := rfl
    rw [htl]
    rw [normAuthL_of_contains _ hkey]
    unfold collapseWs pyStrip
    rfl

theorem C8_witness :
    strContains (normalize_author_list (some "Smith, J; Doe, A")) " and " = true ∧
      normalize_author_list (some (normalize_author_list (some "Smith, J; Doe, A"))) =
        collapseWs (pyStrip (normalize_author_list (some "Smith, J; Doe, A"))) :=
  ⟨by decide, C8_amended_idempotence (some "Smith, J; Doe, A") (by decide)⟩

end SLR
